import Mathlib

/-!
Verification development for the `@gedai/nestjs-common` HTTP logging
middleware.  The definitions below are shallow embeddings of the three
source files:

* `src/logger/http-inspector-inbound.middleware.ts`
* `src/logger/log-http.middleware.ts`
* `src/common.options.ts`

Pure fragments (log-level selection, route-pattern matching) become Lean
functions; the monkey-patching of `res.send` / `res.json` becomes an
explicit state machine over a per-request capture state; the fallibility
of the patched original operations is modelled with `Except`.
-/

set_option linter.unusedVariables false

/-! ### Log levels

Both middleware classes contain the same private `getLogLevel` method:

```ts
private getLogLevel(res: Response) {
  const statusCode = res.statusCode;
  if (statusCode >= 500) { return 'error'; }
  if (statusCode >= 400) { return 'warn'; }
  return 'log';
}
```
-/

inductive LogLevel where
  | error
  | warn
  | log
deriving DecidableEq, Repr

namespace HttpInspectorInboundMiddleware

def getLogLevel (statusCode : Nat) : LogLevel :=
  if statusCode ≥ 500 then .error
  else if statusCode ≥ 400 then .warn
  else .log

end HttpInspectorInboundMiddleware

namespace LogHttpMiddleware

def getLogLevel (statusCode : Nat) : LogLevel :=
  if statusCode ≥ 500 then .error
  else if statusCode ≥ 400 then .warn
  else .log

end LogHttpMiddleware

/-! ### Response bodies and JavaScript truthiness

The interception guard in both middlewares is `if (!responseBody)`, which
tests JavaScript *truthiness* of the captured cell, not whether the cell
was ever written.  `Body` models the JS values a body can take and
`truthy` models JS boolean coercion (`"" `, `0`, `false`, `null` are
falsy; every object is truthy).
-/

inductive Body where
  | str (s : String)
  | num (n : Int)
  | bool (b : Bool)
  | obj (fields : List (String × Int))
  | null
deriving DecidableEq, Repr

def truthy : Body → Bool
  | .str s => !s.isEmpty
  | .num n => n != 0
  | .bool b => b
  | .obj _ => true
  | .null => false

/-! ### The capture state machine

```ts
let responseBody = null;
const originalSend = res.send;
res.send = (body) => {
  if (!responseBody) { responseBody = body; }
  res.send = originalSend;
  return res.send(body);
};
const originalJson = res.json;
res.json = (body) => {
  if (!responseBody) { responseBody = body; }
  res.json = originalJson;
  return res.json(body);
};
```

The mutable pieces per request are the closure variable `responseBody`
and, for each of the two methods, whether the patched version is still
installed (each wrapper restores the original before delegating, so it
runs at most once per request).
-/

structure CaptureState where
  responseBody : Body
  sendPatched : Bool
  jsonPatched : Bool
deriving DecidableEq, Repr

/-- State right after the middleware installed both wrappers:
`responseBody = null`, both methods patched. -/
def initState : CaptureState :=
  { responseBody := .null, sendPatched := true, jsonPatched := true }

/-- `if (!responseBody) { responseBody = body; }` -/
def record (cell : Body) (b : Body) : Body :=
  if truthy cell then cell else b

inductive Chan where
  | send
  | json
deriving DecidableEq, Repr

/-- One body emission: which method was called and with which payload. -/
structure Emission where
  chan : Chan
  body : Body
deriving DecidableEq, Repr

/-- The function stored into `res.send` by the middleware: conditionally
record the body, restore the original method, then call the (restored)
original with the same body and return its result. -/
def sendWrapped (origSend : Body → ρ) (s : CaptureState) (b : Body) :
    CaptureState × ρ :=
  ({ responseBody := record s.responseBody b
   , sendPatched := false
   , jsonPatched := s.jsonPatched }, origSend b)

/-- The function stored into `res.json`, symmetric to `sendWrapped`. -/
def jsonWrapped (origJson : Body → ρ) (s : CaptureState) (b : Body) :
    CaptureState × ρ :=
  ({ responseBody := record s.responseBody b
   , sendPatched := s.sendPatched
   , jsonPatched := false }, origJson b)

/-- Calling `res.send(b)`: the wrapper while it is installed, the
original method afterwards. -/
def callSend (origSend : Body → ρ) (s : CaptureState) (b : Body) :
    CaptureState × ρ :=
  if s.sendPatched then sendWrapped origSend s b else (s, origSend b)

/-- Calling `res.json(b)`. -/
def callJson (origJson : Body → ρ) (s : CaptureState) (b : Body) :
    CaptureState × ρ :=
  if s.jsonPatched then jsonWrapped origJson s b else (s, origJson b)

/-- Dispatch one emission to the corresponding method. -/
def callEmission (origSend origJson : Body → ρ) (s : CaptureState)
    (e : Emission) : CaptureState × ρ :=
  match e.chan with
  | .send => callSend origSend s e.body
  | .json => callJson origJson s e.body

/-- Run a sequence of emissions, collecting the value returned to the
caller of each emission. -/
def runEmissions (origSend origJson : Body → ρ) :
    CaptureState → List Emission → CaptureState × List ρ
  | s, [] => (s, [])
  | s, e :: es =>
      let p := callEmission origSend origJson s e
      let q := runEmissions origSend origJson p.1 es
      (q.1, p.2 :: q.2)

/-- State-only view of one emission. -/
def emitStep (s : CaptureState) (e : Emission) : CaptureState :=
  (callEmission (fun _ => ()) (fun _ => ()) s e).1

/-- The value found in the capture cell at the `finish` notification,
after the given emissions happened on a freshly intercepted response. -/
def captured (es : List Emission) : Body :=
  (es.foldl emitStep initState).responseBody

/-! ### Route-ignore patterns

```ts
private shouldIgnoreRoute(req: Request) {
  return this.ignoredRoutes.some((x) => x.test(req.path.trim()));
}
...
ignoreRoutes.map((x) => new RegExp(`^${x.replace('*', '.+')}$`, 'i'))
```

`String.prototype.replace` with a *string* first argument replaces only
the **first** occurrence, so only the first `*` of a pattern becomes
`.+`; any later `*` survives into the regex source, where it is the
Kleene star of the preceding character.  The regex is anchored (`^…$`)
and case-insensitive (`'i'`).

The compiled regexes are modelled by a small regex fragment sufficient
for sources built from ordinary path characters plus `.`, `*` and `+`:
a sequence of atoms (literal character or `.`), each possibly carrying a
`*` or `+` quantifier.  `parseRegex` reads the regex source (between the
`^` and `$` anchors, which are modelled by `rmatch` requiring a
full-string match); sources using regex features outside the fragment
(`\\`, groups, classes, `|`, `?`, inner anchors) are outside the model
and map to `none`, as do genuinely invalid sources (such as a dangling
quantifier), on which the `RegExp` constructor throws.

The backtracking matcher recurses on a measure that is not structural,
so it takes an explicit fuel argument; `s.length + ps.length` strictly
decreases on every recursive call, hence any fuel above that bound
computes the match (`rmatchAux_congr` below).
-/

/-- JavaScript line terminators, which `.` does not match. -/
def lineTerm (c : Char) : Bool :=
  c = '\n' || c = '\r' || c = '\u2028' || c = '\u2029'

/-- The JavaScript whitespace set used by `String.prototype.trim`:
WhiteSpace (tab, vertical tab, form feed, space, no-break space, BOM and
the Unicode space separators) together with the line terminators. -/
def jsWhitespace (c : Char) : Bool :=
  ['\t', '\n', '\x0b', '\x0c', '\r', ' ', '\u00A0', '\u1680',
   '\u2000', '\u2001', '\u2002', '\u2003', '\u2004', '\u2005',
   '\u2006', '\u2007', '\u2008', '\u2009', '\u200A', '\u2028',
   '\u2029', '\u202F', '\u205F', '\u3000', '\uFEFF'].contains c

/-- `path.trim()` on the character list. -/
def trimChars (s : List Char) : List Char :=
  ((s.dropWhile jsWhitespace).reverse.dropWhile jsWhitespace).reverse

inductive Atom where
  | lit (c : Char)
  | dot
deriving DecidableEq, Repr

inductive Piece where
  | once (a : Atom)
  | star (a : Atom)
  | plus (a : Atom)
deriving DecidableEq, Repr

/-- Single-character match, with the `'i'` flag folding case. -/
def amatch : Atom → Char → Bool
  | .lit l, c => l.toLower == c.toLower
  | .dot, c => !lineTerm c

/-- Regex source characters whose JS meaning is outside the modelled
fragment. -/
def outsideFragment (c : Char) : Bool :=
  ['\\', '(', ')', '[', ']', '{', '}', '|', '?', '^', '$'].contains c

def toAtom (c : Char) : Atom :=
  if c = '.' then .dot else .lit c

def parseRegex : List Char → Option (List Piece)
  | [] => some []
  | [c] =>
      if outsideFragment c || c = '*' || c = '+' then none
      else some [Piece.once (toAtom c)]
  | c :: c₂ :: cs =>
      if outsideFragment c || c = '*' || c = '+' then none
      else if c₂ = '*' then (parseRegex cs).map (Piece.star (toAtom c) :: ·)
      else if c₂ = '+' then (parseRegex cs).map (Piece.plus (toAtom c) :: ·)
      else (parseRegex (c₂ :: cs)).map (Piece.once (toAtom c) :: ·)

/-- Fuelled anchored match of a piece list against a whole string. -/
def rmatchAux : Nat → List Piece → List Char → Bool
  | 0, _, _ => false
  | _ + 1, [], s => s.isEmpty
  | _ + 1, .once _ :: _, [] => false
  | fuel + 1, .once a :: ps, c :: s => amatch a c && rmatchAux fuel ps s
  | fuel + 1, .star a :: ps, s =>
      rmatchAux fuel ps s ||
        (match s with
         | [] => false
         | c :: s' => amatch a c && rmatchAux fuel (.star a :: ps) s')
  | _ + 1, .plus _ :: _, [] => false
  | fuel + 1, .plus a :: ps, c :: s =>
      amatch a c && rmatchAux fuel (.star a :: ps) s

/-- `regex.test(s)` for a compiled piece list: anchored match of the
whole string. -/
def rmatch (ps : List Piece) (s : List Char) : Bool :=
  rmatchAux (s.length + ps.length + 1) ps s

/-- `x.replace('*', '.+')` — replaces the **first** `*` only. -/
def replaceFirstStar : List Char → List Char
  | [] => []
  | c :: cs => if c = '*' then '.' :: '+' :: cs else c :: replaceFirstStar cs

/-- `new RegExp('^' + x.replace('*', '.+') + '$', 'i')`. -/
def compilePattern (x : String) : Option (List Piece) :=
  parseRegex (replaceFirstStar x.data)

/-- `ignoreRoutes.map((x) => new RegExp(...))`: `none` when some pattern
falls outside the modelled fragment. -/
def compileAll (patterns : List String) : Option (List (List Piece)) :=
  patterns.mapM compilePattern

/-- `this.ignoredRoutes.some((x) => x.test(req.path.trim()))`. -/
def shouldIgnoreRoute (ignoredRoutes : List (List Piece)) (path : String) :
    Bool :=
  ignoredRoutes.any fun r => rmatch r (trimChars path.data)

/-- Route-ignore decision starting from the configured pattern strings. -/
def shouldIgnorePatterns (patterns : List String) (path : String) :
    Option Bool :=
  (compileAll patterns).map fun rs => shouldIgnoreRoute rs path

/-! ### The matcher described by the specification

Modelled from the spec (§4.1, §8): the trimmed path matches a pattern
case-insensitively, anchored at both ends, with **each** wildcard token
`*` expanded to match one or more characters.  Fuelled like `rmatchAux`,
for the same reason. -/

def specMatchAux : Nat → List Char → List Char → Bool
  | 0, _, _ => false
  | _ + 1, [], s => s.isEmpty
  | fuel + 1, p :: ps, s =>
      if p = '*' then
        match s with
        | [] => false
        | _ :: s' => specMatchAux fuel ps s' || specMatchAux fuel (p :: ps) s'
      else
        match s with
        | [] => false
        | c :: s' => (p.toLower == c.toLower) && specMatchAux fuel ps s'

def specMatch (ps s : List Char) : Bool :=
  specMatchAux (s.length + ps.length + 1) ps s

/-- Modelled from the spec: `shouldIgnore(P)` per §8 of the spec. -/
def specShouldIgnore (patterns : List String) (path : String) : Bool :=
  patterns.any fun x => specMatch x.data (trimChars path.data)

/-- Case-insensitive equality of character lists (the anchored match of
a wildcard-free pattern). -/
def lowerEq : List Char → List Char → Bool
  | [], [] => true
  | a :: as, b :: bs => (a.toLower == b.toLower) && lowerEq as bs
  | _, _ => false

/-- Pattern characters that compile to a plain literal atom: not a regex
metacharacter of the modelled fragment. -/
def plainChar (c : Char) : Bool :=
  !(outsideFragment c || c == '*' || c == '+' || c == '.')

/-- Patterns made of plain characters and at most one `*` wildcard: the
pattern language on which the code agrees with the specification. -/
def patternOk : List Char → Bool
  | [] => true
  | c :: cs => if c = '*' then cs.all plainChar else plainChar c && patternOk cs

/-! ### Middleware orchestration

```ts
use(req: Request, res: Response, next: NextFunction) {
  if (this.shouldIgnoreRoute(req)) { return next(); }
  ...intercept send/json...
  res.on('finish', () => { ... this.logger[logLevel]({...}); });
  next();
}
```

`UseOutcome` records the externally observable effects of one request
through `use`: how often the continuation ran, whether the response was
intercepted, and the log records emitted once the response finished
with the given status code.
-/

structure UseOutcome where
  nextCalls : Nat
  captureInstalled : Bool
  logRecords : List LogLevel
deriving DecidableEq, Repr

namespace HttpInspectorInboundMiddleware

def use (ignoredRoutes : List (List Piece)) (path : String) (status : Nat) :
    UseOutcome :=
  if shouldIgnoreRoute ignoredRoutes path then
    { nextCalls := 1, captureInstalled := false, logRecords := [] }
  else
    { nextCalls := 1, captureInstalled := true
    , logRecords := [getLogLevel status] }

end HttpInspectorInboundMiddleware

/-! ### Module configuration

```ts
const { ignoreRoutes = [] } = opts || {};
const httpInspection = configService.get('TRAFFIC_INSPECTION_HTTP', 'inbound');
if (!['all', 'inbound'].includes(httpInspection)) { return app; }
...
const inspector = new HttpInspectorInboundMiddleware(
  ignoreRoutes.map((x) => new RegExp(`^${x.replace('*', '.+')}$`, 'i')));
app.use(middleware);
return app;
```

The application is modelled by its list of installed middleware names;
the configuration source by the optional value it supplies for the
`TRAFFIC_INSPECTION_HTTP` key.  A pattern outside the modelled regex
fragment makes the whole configuration call `none`.
-/

/-- `configService.get('TRAFFIC_INSPECTION_HTTP', 'inbound')`. -/
def resolveMode (cfg : Option String) : String :=
  cfg.getD "inbound"

structure AppModel where
  middlewares : List String
deriving DecidableEq, Repr

def configureHttpInspectorInbound (ignoreRoutes : List String)
    (cfg : Option String) (app : AppModel) : Option AppModel :=
  let httpInspection := resolveMode cfg
  if !(["all", "inbound"].contains httpInspection) then some app
  else
    match compileAll ignoreRoutes with
    | none => none
    | some _ =>
        some { app with
               middlewares :=
                 app.middlewares ++ ["HttpInspectorInboundMiddleware"] }

/-! ## Basic lemmas about the capture state machine -/

theorem record_of_truthy {cell b : Body} (h : truthy cell = true) :
    record cell b = cell := by
  simp [record, h]

theorem emitStep_responseBody_of_truthy {s : CaptureState} (e : Emission)
    (h : truthy s.responseBody = true) :
    (emitStep s e).responseBody = s.responseBody := by
  cases e with
  | mk chan body =>
    cases chan <;>
      simp [emitStep, callEmission, callSend, callJson, sendWrapped,
        jsonWrapped, record_of_truthy h] <;>
      split <;> simp [record_of_truthy h]

theorem foldl_emitStep_responseBody_of_truthy (es : List Emission)
    (s : CaptureState) (h : truthy s.responseBody = true) :
    (es.foldl emitStep s).responseBody = s.responseBody := by
  induction es generalizing s with
  | nil => rfl
  | cons e es ih =>
      rw [List.foldl_cons, ih _ ?_, emitStep_responseBody_of_truthy e h]
      rw [emitStep_responseBody_of_truthy e h]
      exact h

/-- C1: for a single request, the capture cell read at the completion
notification equals the first emitted body — provided that body is
truthy — no later emission overwrites it, and the cell is `null` when no
body was ever emitted.  (The truthiness proviso is forced by
`captured_falsy_overwritten_cex`.) -/
theorem captured_eq_first_body :
    (∀ (e : Emission) (es : List Emission), truthy e.body = true →
        captured (e :: es) = e.body) ∧
    captured [] = Body.null := by
  refine ⟨fun e es h => ?_, rfl⟩
  have h₁ : (emitStep initState e).responseBody = e.body := by
    cases e with
    | mk chan body => cases chan <;> rfl
  calc (List.foldl emitStep initState (e :: es)).responseBody
      = (List.foldl emitStep (emitStep initState e) es).responseBody := by
        rw [List.foldl_cons]
    _ = (emitStep initState e).responseBody :=
        foldl_emitStep_responseBody_of_truthy es _ (by rw [h₁]; exact h)
    _ = e.body := h₁

theorem captured_eq_first_body_witness :
    captured [⟨Chan.send, Body.str "x"⟩, ⟨Chan.json, Body.str "y"⟩]
      = Body.str "x" :=
  captured_eq_first_body.1 ⟨Chan.send, Body.str "x"⟩
    [⟨Chan.json, Body.str "y"⟩] (by decide)

/-- C1 counterexample: emitting the falsy body `""` through `send` and
then `{"a":1}` through `json` leaves `{"a":1}` in the cell, not the
first payload `""`: the second emission overwrites the already-captured
value, against the claim. -/
theorem captured_falsy_overwritten_cex :
    captured [⟨Chan.send, Body.str ""⟩] = Body.str "" ∧
    captured [⟨Chan.send, Body.str ""⟩, ⟨Chan.json, Body.obj [("a", 1)]⟩]
        = Body.obj [("a", 1)] ∧
    Body.obj [("a", 1)] ≠ Body.str "" := by
  refine ⟨rfl, rfl, by decide⟩

theorem callEmission_snd (origSend origJson : Body → ρ) (s : CaptureState)
    (e : Emission) :
    (callEmission origSend origJson s e).2 =
      match e.chan with
      | .send => origSend e.body
      | .json => origJson e.body := by
  cases e with
  | mk chan body =>
      cases chan <;>
        simp [callEmission, callSend, callJson, sendWrapped, jsonWrapped] <;>
        split <;> rfl

/-- C4: after interception is installed, every call to either emission
operation invokes the original operation with the same body argument and
returns its value unchanged, so the sequence of deliveries to the client
is exactly the emitted payloads `b1..bN`, as without interception. -/
theorem runEmissions_delivers_unchanged (ρ : Type)
    (origSend origJson : Body → ρ) (s : CaptureState) (es : List Emission) :
    (runEmissions origSend origJson s es).2 =
      es.map fun e =>
        match e.chan with
        | .send => origSend e.body
        | .json => origJson e.body := by
  induction es generalizing s with
  | nil => rfl
  | cons e es ih =>
      rw [runEmissions, List.map_cons]
      simp only [callEmission_snd, ih]

/-- C7: when the original emission operation throws, the wrapper returns
the exception unchanged, and the capture cell was already updated (the
recording happens before the original operation runs). -/
theorem emission_error_propagates (ε ρ : Type)
    (origSend origJson : Body → Except ε ρ) (s : CaptureState) (b : Body)
    (err : ε) (hs : s.sendPatched = true) (hj : s.jsonPatched = true) :
    (origSend b = .error err →
      callSend origSend s b =
        ({ responseBody := record s.responseBody b, sendPatched := false,
           jsonPatched := s.jsonPatched }, Except.error err)) ∧
    (origJson b = .error err →
      callJson origJson s b =
        ({ responseBody := record s.responseBody b,
           sendPatched := s.sendPatched, jsonPatched := false },
         Except.error err)) := by
  constructor
  · intro h
    simp [callSend, hs, sendWrapped, h]
  · intro h
    simp [callJson, hj, jsonWrapped, h]

theorem emission_error_propagates_witness :
    callSend (fun _ => (Except.error "boom" : Except String Unit)) initState
        (Body.str "x") =
      ({ responseBody := Body.str "x", sendPatched := false,
         jsonPatched := true }, Except.error "boom") :=
  (emission_error_propagates String Unit (fun _ => .error "boom")
    (fun _ => .error "boom") initState (Body.str "x") "boom" rfl rfl).1 rfl

/-! ## Log-level theorems -/

/-- C3: the selected severity is `error` for status codes at least 500,
`warn` for 400–499 and informational (`log`) below 400, with the
boundary cases 399, 400, 499 and 500. -/
theorem getLogLevel_severity (C : Nat) :
    (500 ≤ C → HttpInspectorInboundMiddleware.getLogLevel C = .error) ∧
    (400 ≤ C → C < 500 →
      HttpInspectorInboundMiddleware.getLogLevel C = .warn) ∧
    (C < 400 → HttpInspectorInboundMiddleware.getLogLevel C = .log) ∧
    HttpInspectorInboundMiddleware.getLogLevel 399 = .log ∧
    HttpInspectorInboundMiddleware.getLogLevel 400 = .warn ∧
    HttpInspectorInboundMiddleware.getLogLevel 499 = .warn ∧
    HttpInspectorInboundMiddleware.getLogLevel 500 = .error := by
  refine ⟨fun h => ?_, fun h₁ h₂ => ?_, fun h => ?_, rfl, rfl, rfl, rfl⟩
  · simp [HttpInspectorInboundMiddleware.getLogLevel, h]
  · have h₅ : ¬ (500 ≤ C) := by omega
    simp [HttpInspectorInboundMiddleware.getLogLevel, h₅, h₁]
  · have h₅ : ¬ (500 ≤ C) := by omega
    have h₄ : ¬ (400 ≤ C) := by omega
    simp [HttpInspectorInboundMiddleware.getLogLevel, h₅, h₄]

theorem getLogLevel_severity_witness :
    HttpInspectorInboundMiddleware.getLogLevel 503 = .error ∧
    HttpInspectorInboundMiddleware.getLogLevel 404 = .warn ∧
    HttpInspectorInboundMiddleware.getLogLevel 200 = .log :=
  ⟨(getLogLevel_severity 503).1 (by decide),
   (getLogLevel_severity 404).2.1 (by decide) (by decide),
   (getLogLevel_severity 200).2.2.1 (by decide)⟩

/-- C9: the inbound-inspection middleware and the audit middleware select
the same severity for every status code: their status-to-severity
functions are extensionally equal. -/
theorem getLogLevel_variants_agree (C : Nat) :
    HttpInspectorInboundMiddleware.getLogLevel C =
      LogHttpMiddleware.getLogLevel C := rfl

/-! ## Orchestration theorems -/

/-- C5: a request whose trimmed path matches the ignore set runs the
continuation exactly once, installs no interception and produces no log
record. -/
theorem use_ignored_route (rs : List (List Piece)) (path : String)
    (status : Nat) (h : shouldIgnoreRoute rs path = true) :
    HttpInspectorInboundMiddleware.use rs path status =
      { nextCalls := 1, captureInstalled := false, logRecords := [] } := by
  simp [HttpInspectorInboundMiddleware.use, h]

theorem use_ignored_route_witness :
    HttpInspectorInboundMiddleware.use
        [[Piece.once (Atom.lit '/'), Piece.once (Atom.lit 'x')]] "/x" 200 =
      { nextCalls := 1, captureInstalled := false, logRecords := [] } :=
  use_ignored_route [[Piece.once (Atom.lit '/'), Piece.once (Atom.lit 'x')]]
    "/x" 200 (by decide)

/-- C8: the middleware is installed iff the resolved inspection mode is
`all` or `inbound`; for any other resolved mode the application is
returned unchanged, with nothing registered. -/
theorem configure_mode_gate (ignoreRoutes : List String)
    (cfg : Option String) (app : AppModel) (rs : List (List Piece))
    (hc : compileAll ignoreRoutes = some rs) :
    ((resolveMode cfg = "all" ∨ resolveMode cfg = "inbound") →
      configureHttpInspectorInbound ignoreRoutes cfg app =
        some { app with
               middlewares :=
                 app.middlewares ++ ["HttpInspectorInboundMiddleware"] }) ∧
    (resolveMode cfg ≠ "all" → resolveMode cfg ≠ "inbound" →
      configureHttpInspectorInbound ignoreRoutes cfg app = some app) := by
  constructor
  · intro h
    have hmem : (["all", "inbound"].contains (resolveMode cfg)) = true := by
      refine List.elem_eq_true_of_mem ?_
      rcases h with h | h <;> simp [h]
    simp only [configureHttpInspectorInbound, hmem, Bool.not_true,
      Bool.false_eq_true, if_false, hc]
  · intro h₁ h₂
    have hmem : (["all", "inbound"].contains (resolveMode cfg)) = false := by
      rw [Bool.eq_false_iff]
      intro hx
      have := List.mem_of_elem_eq_true hx
      simp [h₁, h₂] at this
    simp only [configureHttpInspectorInbound, hmem, Bool.not_false, if_true]

theorem configure_mode_gate_witness :
    configureHttpInspectorInbound [] (some "all") ⟨[]⟩ =
      some ⟨["HttpInspectorInboundMiddleware"]⟩ ∧
    configureHttpInspectorInbound [] (some "none") ⟨[]⟩ = some ⟨[]⟩ :=
  ⟨(configure_mode_gate [] (some "all") ⟨[]⟩ [] rfl).1 (Or.inl rfl),
   (configure_mode_gate [] (some "none") ⟨[]⟩ [] rfl).2 (by decide)
     (by decide)⟩

/-- C10: when the configuration source supplies no value for the
`TRAFFIC_INSPECTION_HTTP` key, the mode resolves to the default
`inbound` and the inbound inspection middleware is installed. -/
theorem configure_default_mode_inbound (ignoreRoutes : List String)
    (app : AppModel) (rs : List (List Piece))
    (hc : compileAll ignoreRoutes = some rs) :
    resolveMode none = "inbound" ∧
    configureHttpInspectorInbound ignoreRoutes none app =
      some { app with
             middlewares :=
               app.middlewares ++ ["HttpInspectorInboundMiddleware"] } := by
  refine ⟨rfl, ?_⟩
  simp [configureHttpInspectorInbound, resolveMode, hc]

theorem configure_default_mode_inbound_witness :
    configureHttpInspectorInbound ["/health"] none ⟨[]⟩ =
      some ⟨["HttpInspectorInboundMiddleware"]⟩ :=
  (configure_default_mode_inbound ["/health"] ⟨[]⟩
    [[Piece.once (Atom.lit '/'), Piece.once (Atom.lit 'h'),
      Piece.once (Atom.lit 'e'), Piece.once (Atom.lit 'a'),
      Piece.once (Atom.lit 'l'), Piece.once (Atom.lit 't'),
      Piece.once (Atom.lit 'h')]] (by decide)).2

/-- C6: with pattern `/v1/accounts/*/holder` the path
`/v1/accounts/42/holder` is ignored; with pattern `/v1/accounts/*` the
path `/v1/accounts` is not, since the wildcard must match at least one
character. -/
theorem ignore_route_scenarios :
    shouldIgnorePatterns ["/v1/accounts/*/holder"] "/v1/accounts/42/holder"
        = some true ∧
    shouldIgnorePatterns ["/v1/accounts/*"] "/v1/accounts" = some false := by
  exact ⟨by decide, by decide⟩

/-! ## Fuel irrelevance and unfolding equations for the matchers -/

theorem rmatchAux_congr (f₁ : Nat) : ∀ (f₂ : Nat) (ps : List Piece)
    (s : List Char), s.length + ps.length < f₁ →
    s.length + ps.length < f₂ → rmatchAux f₁ ps s = rmatchAux f₂ ps s := by
  induction f₁ with
  | zero => intro f₂ ps s h₁ h₂; omega
  | succ n ih =>
      intro f₂ ps s h₁ h₂
      cases f₂ with
      | zero => omega
      | succ m =>
          cases ps with
          | nil => rfl
          | cons p ps =>
              cases p with
              | once a =>
                  cases s with
                  | nil => rfl
                  | cons c s =>
                      simp only [rmatchAux]
                      rw [ih m ps s (by simp at h₁ ⊢; omega)
                        (by simp at h₂ ⊢; omega)]
              | star a =>
                  cases s with
                  | nil =>
                      simp only [rmatchAux]
                      rw [ih m ps [] (by simp at h₁ ⊢; omega)
                        (by simp at h₂ ⊢; omega)]
                  | cons c s =>
                      simp only [rmatchAux]
                      rw [ih m ps (c :: s) (by simp at h₁ ⊢; omega)
                          (by simp at h₂ ⊢; omega),
                        ih m (.star a :: ps) s (by simp at h₁ ⊢; omega)
                          (by simp at h₂ ⊢; omega)]
              | plus a =>
                  cases s with
                  | nil => rfl
                  | cons c s =>
                      simp only [rmatchAux]
                      rw [ih m (.star a :: ps) s (by simp at h₁ ⊢; omega)
                        (by simp at h₂ ⊢; omega)]

theorem rmatchAux_eq_rmatch (f : Nat) (ps : List Piece) (s : List Char)
    (h : s.length + ps.length < f) : rmatchAux f ps s = rmatch ps s :=
  rmatchAux_congr f (s.length + ps.length + 1) ps s h (by omega)

theorem rmatch_nil_ps (s : List Char) : rmatch [] s = s.isEmpty := rfl

theorem rmatch_once_nil (a : Atom) (ps : List Piece) :
    rmatch (.once a :: ps) [] = false := rfl

theorem rmatch_once_cons (a : Atom) (ps : List Piece) (c : Char)
    (s : List Char) :
    rmatch (.once a :: ps) (c :: s) = (amatch a c && rmatch ps s) := by
  have h1 : rmatch (.once a :: ps) (c :: s)
      = (amatch a c &&
          rmatchAux ((c :: s).length + (Piece.once a :: ps).length) ps s) :=
    rfl
  rw [h1, rmatchAux_eq_rmatch ((c :: s).length + (Piece.once a :: ps).length)
    ps s (by simp only [List.length_cons]; omega)]

theorem rmatch_star_nil (a : Atom) (ps : List Piece) :
    rmatch (.star a :: ps) [] = rmatch ps [] := by
  have h1 : rmatch (.star a :: ps) []
      = (rmatchAux (List.length [] + (Piece.star a :: ps).length) ps []
          || false) := rfl
  rw [h1, rmatchAux_eq_rmatch (List.length [] + (Piece.star a :: ps).length)
      ps [] (by simp only [List.length_cons, List.length_nil]; omega),
    Bool.or_false]

theorem rmatch_star_cons (a : Atom) (ps : List Piece) (c : Char)
    (s : List Char) :
    rmatch (.star a :: ps) (c :: s) =
      (rmatch ps (c :: s) || (amatch a c && rmatch (.star a :: ps) s)) := by
  have h1 : rmatch (.star a :: ps) (c :: s)
      = (rmatchAux ((c :: s).length + (Piece.star a :: ps).length) ps (c :: s)
          || (amatch a c &&
            rmatchAux ((c :: s).length + (Piece.star a :: ps).length)
              (.star a :: ps) s)) := rfl
  rw [h1,
    rmatchAux_eq_rmatch ((c :: s).length + (Piece.star a :: ps).length) ps
      (c :: s) (by simp only [List.length_cons]; omega),
    rmatchAux_eq_rmatch ((c :: s).length + (Piece.star a :: ps).length)
      (.star a :: ps) s (by simp only [List.length_cons]; omega)]

theorem rmatch_plus_nil (a : Atom) (ps : List Piece) :
    rmatch (.plus a :: ps) [] = false := rfl

theorem rmatch_plus_cons (a : Atom) (ps : List Piece) (c : Char)
    (s : List Char) :
    rmatch (.plus a :: ps) (c :: s) =
      (amatch a c && rmatch (.star a :: ps) s) := by
  have h1 : rmatch (.plus a :: ps) (c :: s)
      = (amatch a c &&
          rmatchAux ((c :: s).length + (Piece.plus a :: ps).length)
            (.star a :: ps) s) := rfl
  rw [h1, rmatchAux_eq_rmatch ((c :: s).length + (Piece.plus a :: ps).length)
    (.star a :: ps) s (by simp only [List.length_cons]; omega)]

theorem specMatchAux_congr (f₁ : Nat) : ∀ (f₂ : Nat) (ps : List Char)
    (s : List Char), s.length + ps.length < f₁ →
    s.length + ps.length < f₂ →
    specMatchAux f₁ ps s = specMatchAux f₂ ps s := by
  induction f₁ with
  | zero => intro f₂ ps s h₁ h₂; omega
  | succ n ih =>
      intro f₂ ps s h₁ h₂
      cases f₂ with
      | zero => omega
      | succ m =>
          cases ps with
          | nil => rfl
          | cons p ps =>
              by_cases hp : p = '*'
              · cases s with
                | nil => simp only [specMatchAux, hp, if_pos]
                | cons c s =>
                    simp only [specMatchAux, hp, if_pos]
                    rw [ih m ps s (by simp at h₁ ⊢; omega)
                        (by simp at h₂ ⊢; omega),
                      ih m ('*' :: ps) s (by simp at h₁ ⊢; omega)
                        (by simp at h₂ ⊢; omega)]
              · cases s with
                | nil => simp only [specMatchAux, hp, if_neg, if_false]
                | cons c s =>
                    simp only [specMatchAux, hp, if_neg, if_false]
                    rw [ih m ps s (by simp at h₁ ⊢; omega)
                      (by simp at h₂ ⊢; omega)]

theorem specMatchAux_eq_specMatch (f : Nat) (ps s : List Char)
    (h : s.length + ps.length < f) : specMatchAux f ps s = specMatch ps s :=
  specMatchAux_congr f (s.length + ps.length + 1) ps s h (by omega)

theorem specMatch_nil_ps (s : List Char) : specMatch [] s = s.isEmpty := rfl

theorem specMatch_cons (p : Char) (ps s : List Char) :
    specMatch (p :: ps) s =
      if p = '*' then
        match s with
        | [] => false
        | _ :: s' =>
            specMatchAux (s.length + (p :: ps).length) ps s' ||
              specMatchAux (s.length + (p :: ps).length) (p :: ps) s'
      else
        match s with
        | [] => false
        | c :: s' =>
            (p.toLower == c.toLower) &&
              specMatchAux (s.length + (p :: ps).length) ps s' := rfl

theorem specMatch_star_nil (ps : List Char) :
    specMatch ('*' :: ps) [] = false := by
  rw [specMatch_cons, if_pos rfl]

theorem specMatch_star_cons (ps : List Char) (c : Char) (s : List Char) :
    specMatch ('*' :: ps) (c :: s) =
      (specMatch ps s || specMatch ('*' :: ps) s) := by
  rw [specMatch_cons, if_pos rfl]
  show (specMatchAux ((c :: s).length + ('*' :: ps).length) ps s ||
      specMatchAux ((c :: s).length + ('*' :: ps).length) ('*' :: ps) s) = _
  rw [specMatchAux_eq_specMatch ((c :: s).length + ('*' :: ps).length) ps s
      (by simp only [List.length_cons]; omega),
    specMatchAux_eq_specMatch ((c :: s).length + ('*' :: ps).length)
      ('*' :: ps) s (by simp only [List.length_cons]; omega)]

theorem specMatch_lit_nil (p : Char) (ps : List Char) :
    specMatch (p :: ps) [] = false := by
  rw [specMatch_cons]
  by_cases hp : p = '*'
  · rw [if_pos hp]
  · rw [if_neg hp]

theorem specMatch_lit_cons (p : Char) (ps : List Char) (c : Char)
    (s : List Char) (hp : p ≠ '*') :
    specMatch (p :: ps) (c :: s) =
      ((p.toLower == c.toLower) && specMatch ps s) := by
  rw [specMatch_cons, if_neg hp]
  show ((p.toLower == c.toLower) &&
      specMatchAux ((c :: s).length + (p :: ps).length) ps s) = _
  rw [specMatchAux_eq_specMatch ((c :: s).length + (p :: ps).length) ps s
    (by simp only [List.length_cons]; omega)]

/-! ## Decomposition lemmas for anchored matching -/

theorem lowerEq_nil_iff (s : List Char) : lowerEq [] s = true ↔ s = [] := by
  cases s <;> simp [lowerEq]

theorem lowerEq_cons_iff (a : Char) (as s : List Char) :
    lowerEq (a :: as) s = true ↔
      ∃ b bs, s = b :: bs ∧ (a.toLower == b.toLower) = true ∧
        lowerEq as bs = true := by
  cases s with
  | nil => simp [lowerEq]
  | cons b bs =>
      simp only [lowerEq, Bool.and_eq_true]
      constructor
      · rintro ⟨h₁, h₂⟩; exact ⟨b, bs, rfl, h₁, h₂⟩
      · rintro ⟨b', bs', heq, h₁, h₂⟩
        cases heq; exact ⟨h₁, h₂⟩

theorem rmatch_lits_append (u : List Char) (ps : List Piece) (s : List Char) :
    rmatch ((u.map fun c => Piece.once (Atom.lit c)) ++ ps) s = true ↔
      ∃ s₁ s₂, s = s₁ ++ s₂ ∧ lowerEq u s₁ = true ∧ rmatch ps s₂ = true := by
  induction u generalizing s with
  | nil =>
      simp only [List.map_nil, List.nil_append]
      constructor
      · intro h; exact ⟨[], s, rfl, rfl, h⟩
      · rintro ⟨s₁, s₂, heq, hl, hm⟩
        have hs₁ : s₁ = [] := (lowerEq_nil_iff s₁).1 hl
        subst hs₁; simpa [heq] using hm
  | cons a u ih =>
      cases s with
      | nil =>
          simp only [List.map_cons, List.cons_append, rmatch_once_nil]
          constructor
          · intro h; cases h
          · rintro ⟨s₁, s₂, heq, hl, hm⟩
            have hs₁ : s₁ = [] := by
              cases s₁ with
              | nil => rfl
              | cons x xs => simp at heq
            subst hs₁; simp [lowerEq] at hl
      | cons c s =>
          rw [List.map_cons, List.cons_append, rmatch_once_cons]
          simp only [Bool.and_eq_true]
          constructor
          · rintro ⟨hc, h⟩
            obtain ⟨s₁, s₂, heq, hl, hm⟩ := (ih s).1 h
            refine ⟨c :: s₁, s₂, by rw [heq, List.cons_append], ?_, hm⟩
            simp only [lowerEq, Bool.and_eq_true]
            exact ⟨hc, hl⟩
          · rintro ⟨s₁, s₂, heq, hl, hm⟩
            obtain ⟨b, bs, hs₁, hab, hl'⟩ := (lowerEq_cons_iff a u s₁).1 hl
            subst hs₁
            rw [List.cons_append] at heq
            injection heq with h₁ h₂
            subst h₁
            refine ⟨by exact hab, (ih s).2 ⟨bs, s₂, h₂, hl', hm⟩⟩

theorem rmatch_lits (u : List Char) (s : List Char) :
    rmatch (u.map fun c => Piece.once (Atom.lit c)) s = true ↔
      lowerEq u s = true := by
  have h := rmatch_lits_append u [] s
  rw [List.append_nil] at h
  rw [h]
  constructor
  · rintro ⟨s₁, s₂, heq, hl, hm⟩
    rw [rmatch_nil_ps] at hm
    have : s₂ = [] := by simpa [List.isEmpty_iff] using hm
    subst this
    rw [List.append_nil] at heq
    subst heq
    exact hl
  · intro h
    exact ⟨s, [], (List.append_nil s).symm, h, rfl⟩

theorem rmatch_star_dot (ps : List Piece) (s : List Char) :
    rmatch (.star Atom.dot :: ps) s = true ↔
      ∃ m t, s = m ++ t ∧ (m.all fun c => !lineTerm c) = true ∧
        rmatch ps t = true := by
  induction s with
  | nil =>
      rw [rmatch_star_nil]
      constructor
      · intro h; exact ⟨[], [], rfl, rfl, h⟩
      · rintro ⟨m, t, heq, hall, hm⟩
        have hm' : m = [] ∧ t = [] := by
          constructor <;> cases m <;> simp_all
        obtain ⟨h₁, h₂⟩ := hm'
        subst h₁; subst h₂; exact hm
  | cons c s ih =>
      rw [rmatch_star_cons]
      simp only [Bool.or_eq_true, Bool.and_eq_true]
      constructor
      · rintro (h | ⟨hc, h⟩)
        · exact ⟨[], c :: s, rfl, rfl, h⟩
        · obtain ⟨m, t, heq, hall, hm⟩ := ih.1 h
          refine ⟨c :: m, t, by rw [heq, List.cons_append], ?_, hm⟩
          simp only [List.all_cons, Bool.and_eq_true]
          exact ⟨hc, hall⟩
      · rintro ⟨m, t, heq, hall, hm⟩
        cases m with
        | nil =>
            left
            simp only [List.nil_append] at heq
            rw [heq]; exact hm
        | cons d m' =>
            right
            rw [List.cons_append] at heq
            injection heq with h₁ h₂
            subst h₁
            simp only [List.all_cons, Bool.and_eq_true] at hall
            exact ⟨hall.1, ih.2 ⟨m', t, h₂, hall.2, hm⟩⟩

theorem rmatch_plus_dot (ps : List Piece) (s : List Char) :
    rmatch (.plus Atom.dot :: ps) s = true ↔
      ∃ m t, s = m ++ t ∧ m ≠ [] ∧ (m.all fun c => !lineTerm c) = true ∧
        rmatch ps t = true := by
  cases s with
  | nil =>
      rw [rmatch_plus_nil]
      constructor
      · intro h; cases h
      · rintro ⟨m, t, heq, hne, _, _⟩
        cases m with
        | nil => exact absurd rfl hne
        | cons d m' => simp at heq
  | cons c s =>
      rw [rmatch_plus_cons]
      simp only [Bool.and_eq_true]
      constructor
      · rintro ⟨hc, h⟩
        obtain ⟨m, t, heq, hall, hm⟩ := (rmatch_star_dot ps s).1 h
        refine ⟨c :: m, t, by rw [heq, List.cons_append], by simp, ?_, hm⟩
        simp only [List.all_cons, Bool.and_eq_true]
        exact ⟨hc, hall⟩
      · rintro ⟨m, t, heq, hne, hall, hm⟩
        cases m with
        | nil => exact absurd rfl hne
        | cons d m' =>
            rw [List.cons_append] at heq
            injection heq with h₁ h₂
            subst h₁
            simp only [List.all_cons, Bool.and_eq_true] at hall
            exact ⟨hall.1, (rmatch_star_dot ps s).2 ⟨m', t, h₂, hall.2, hm⟩⟩

theorem specMatch_lits_append (u : List Char) (ps : List Char)
    (hu : '*' ∉ u) (s : List Char) :
    specMatch (u ++ ps) s = true ↔
      ∃ s₁ s₂, s = s₁ ++ s₂ ∧ lowerEq u s₁ = true ∧
        specMatch ps s₂ = true := by
  induction u generalizing s with
  | nil =>
      simp only [List.nil_append]
      constructor
      · intro h; exact ⟨[], s, rfl, rfl, h⟩
      · rintro ⟨s₁, s₂, heq, hl, hm⟩
        have hs₁ : s₁ = [] := (lowerEq_nil_iff s₁).1 hl
        subst hs₁; simpa [heq] using hm
  | cons a u ih =>
      have ha : a ≠ '*' := fun h => hu (h ▸ List.mem_cons_self a u)
      have hu' : '*' ∉ u := fun h => hu (List.mem_cons_of_mem a h)
      cases s with
      | nil =>
          rw [List.cons_append, specMatch_lit_nil]
          constructor
          · intro h; cases h
          · rintro ⟨s₁, s₂, heq, hl, hm⟩
            have hs₁ : s₁ = [] := by
              cases s₁ with
              | nil => rfl
              | cons x xs => simp at heq
            subst hs₁; simp [lowerEq] at hl
      | cons c s =>
          rw [List.cons_append, specMatch_lit_cons _ _ _ _ ha]
          simp only [Bool.and_eq_true]
          constructor
          · rintro ⟨hc, h⟩
            obtain ⟨s₁, s₂, heq, hl, hm⟩ := (ih hu' s).1 h
            refine ⟨c :: s₁, s₂, by rw [heq, List.cons_append], ?_, hm⟩
            simp only [lowerEq, Bool.and_eq_true]
            exact ⟨hc, hl⟩
          · rintro ⟨s₁, s₂, heq, hl, hm⟩
            obtain ⟨b, bs, hs₁, hab, hl'⟩ := (lowerEq_cons_iff a u s₁).1 hl
            subst hs₁
            rw [List.cons_append] at heq
            injection heq with h₁ h₂
            subst h₁
            exact ⟨hab, (ih hu' s).2 ⟨bs, s₂, h₂, hl', hm⟩⟩

theorem specMatch_lits (u : List Char) (hu : '*' ∉ u) (s : List Char) :
    specMatch u s = true ↔ lowerEq u s = true := by
  have h := specMatch_lits_append u [] hu s
  rw [List.append_nil] at h
  rw [h]
  constructor
  · rintro ⟨s₁, s₂, heq, hl, hm⟩
    rw [specMatch_nil_ps] at hm
    have : s₂ = [] := by simpa [List.isEmpty_iff] using hm
    subst this
    rw [List.append_nil] at heq
    subst heq
    exact hl
  · intro h
    exact ⟨s, [], (List.append_nil s).symm, h, rfl⟩

theorem specMatch_star_head (ps : List Char) (s : List Char) :
    specMatch ('*' :: ps) s = true ↔
      ∃ m t, s = m ++ t ∧ m ≠ [] ∧ specMatch ps t = true := by
  induction s with
  | nil =>
      rw [specMatch_star_nil]
      constructor
      · intro h; cases h
      · rintro ⟨m, t, heq, hne, _⟩
        cases m with
        | nil => exact absurd rfl hne
        | cons d m' => simp at heq
  | cons c s ih =>
      rw [specMatch_star_cons]
      simp only [Bool.or_eq_true]
      constructor
      · rintro (h | h)
        · exact ⟨[c], s, rfl, by simp, h⟩
        · obtain ⟨m, t, heq, hne, hm⟩ := ih.1 h
          exact ⟨c :: m, t, by rw [heq, List.cons_append], by simp, hm⟩
      · rintro ⟨m, t, heq, hne, hm⟩
        cases m with
        | nil => exact absurd rfl hne
        | cons d m' =>
            rw [List.cons_append] at heq
            injection heq with h₁ h₂
            subst h₁
            cases m' with
            | nil =>
                left
                simp only [List.nil_append] at h₂
                rw [h₂]; exact hm
            | cons e m'' =>
                right
                exact ih.2 ⟨e :: m'', t, h₂, by simp, hm⟩

/-! ## Compilation of plain and single-wildcard patterns -/

theorem plainChar_spec (c : Char) (h : plainChar c = true) :
    outsideFragment c = false ∧ c ≠ '*' ∧ c ≠ '+' ∧ c ≠ '.' := by
  simp only [plainChar, Bool.not_eq_true', Bool.or_eq_false_iff,
    beq_eq_false_iff_ne, ne_eq] at h
  exact ⟨h.1.1.1, h.1.1.2, h.1.2, h.2⟩

theorem toAtom_of_ne_dot (c : Char) (h : c ≠ '.') : toAtom c = Atom.lit c :=
  if_neg h

theorem parseRegex_lits (u : List Char) (hu : u.all plainChar = true) :
    parseRegex u = some (u.map fun c => Piece.once (Atom.lit c)) := by
  induction u with
  | nil => rfl
  | cons a u ih =>
      simp only [List.all_cons, Bool.and_eq_true] at hu
      obtain ⟨hof, hst, hpl, hdt⟩ := plainChar_spec a hu.1
      cases u with
      | nil =>
          simp only [parseRegex, hof, hst, hpl, decide_False, Bool.or_self,
            Bool.or_false, Bool.false_or, if_false, List.map_cons,
            List.map_nil, toAtom_of_ne_dot a hdt]
          simp [hst, hpl]
      | cons b u' =>
          obtain ⟨hof', hst', hpl', hdt'⟩ := plainChar_spec b (by
            simp only [List.all_cons, Bool.and_eq_true] at hu
            exact hu.2.1)
          simp only [parseRegex, hof, hst, hpl, hst', hpl',
            toAtom_of_ne_dot a hdt, ih hu.2, Option.map_some, List.map_cons]
          simp [hst, hpl, hst', hpl']

theorem parseRegex_cons_cons (c c₂ : Char) (cs : List Char) :
    parseRegex (c :: c₂ :: cs) =
      if outsideFragment c || c = '*' || c = '+' then none
      else if c₂ = '*' then (parseRegex cs).map (Piece.star (toAtom c) :: ·)
      else if c₂ = '+' then (parseRegex cs).map (Piece.plus (toAtom c) :: ·)
      else (parseRegex (c₂ :: cs)).map (Piece.once (toAtom c) :: ·) := rfl

theorem parseRegex_lits_plus (u v : List Char) (hu : u.all plainChar = true)
    (hv : v.all plainChar = true) :
    parseRegex (u ++ '.' :: '+' :: v) =
      some ((u.map fun c => Piece.once (Atom.lit c)) ++
        Piece.plus Atom.dot :: (v.map fun c => Piece.once (Atom.lit c))) := by
  induction u with
  | nil =>
      show parseRegex ('.' :: '+' :: v) = _
      rw [parseRegex_cons_cons]
      simp [parseRegex_lits v hv, toAtom]
      decide
  | cons a u ih =>
      simp only [List.all_cons, Bool.and_eq_true] at hu
      obtain ⟨hof, hst, hpl, hdt⟩ := plainChar_spec a hu.1
      have ihr := ih hu.2
      cases u with
      | nil =>
          show parseRegex (a :: '.' :: '+' :: v) = _
          rw [parseRegex_cons_cons]
          simp only [List.nil_append] at ihr
          simp [hof, hst, hpl, toAtom_of_ne_dot a hdt, ihr]
      | cons b u' =>
          obtain ⟨hof', hst', hpl', hdt'⟩ := plainChar_spec b (by
            simp only [List.all_cons, Bool.and_eq_true] at hu
            exact hu.2.1)
          show parseRegex (a :: b :: (u' ++ '.' :: '+' :: v)) = _
          rw [parseRegex_cons_cons]
          rw [show (b :: (u' ++ '.' :: '+' :: v))
              = ((b :: u') ++ '.' :: '+' :: v) from rfl, ihr]
          simp [hof, hst, hpl, hst', hpl', toAtom_of_ne_dot a hdt]

theorem replaceFirstStar_no_star (u : List Char) (h : '*' ∉ u) :
    replaceFirstStar u = u := by
  induction u with
  | nil => rfl
  | cons a u ih =>
      have ha : a ≠ '*' := fun hx => h (hx ▸ List.mem_cons_self a u)
      have h' : '*' ∉ u := fun hx => h (List.mem_cons_of_mem a hx)
      simp only [replaceFirstStar, if_neg ha, ih h']

theorem replaceFirstStar_app_star (u v : List Char) (h : '*' ∉ u) :
    replaceFirstStar (u ++ '*' :: v) = u ++ '.' :: '+' :: v := by
  induction u with
  | nil => simp [replaceFirstStar]
  | cons a u ih =>
      have ha : a ≠ '*' := fun hx => h (hx ▸ List.mem_cons_self a u)
      have h' : '*' ∉ u := fun hx => h (List.mem_cons_of_mem a hx)
      show (if a = '*' then '.' :: '+' :: (u ++ '*' :: v)
          else a :: replaceFirstStar (u ++ '*' :: v))
        = a :: (u ++ '.' :: '+' :: v)
      rw [if_neg ha, ih h']

theorem not_star_mem_of_plain (u : List Char) (h : u.all plainChar = true) :
    '*' ∉ u := by
  intro hm
  have := List.all_eq_true.1 h '*' hm
  exact absurd this (by decide)

theorem patternOk_cases (l : List Char) (h : patternOk l = true) :
    l.all plainChar = true ∨
      ∃ u v, l = u ++ '*' :: v ∧ u.all plainChar = true ∧
        v.all plainChar = true := by
  induction l with
  | nil => left; rfl
  | cons a l ih =>
      by_cases ha : a = '*'
      · subst ha
        right
        simp only [patternOk, if_pos] at h
        exact ⟨[], l, rfl, rfl, h⟩
      · simp only [patternOk, if_neg ha, Bool.and_eq_true] at h
        rcases ih h.2 with hp | ⟨u, v, heq, hu, hv⟩
        · left
          simp only [List.all_cons, Bool.and_eq_true]
          exact ⟨h.1, hp⟩
        · right
          refine ⟨a :: u, v, by rw [heq, List.cons_append], ?_, hv⟩
          simp only [List.all_cons, Bool.and_eq_true]
          exact ⟨h.1, hu⟩

theorem bool_eq_of_iff (a b : Bool) (h : a = true ↔ b = true) : a = b := by
  cases a <;> cases b <;> simp_all

/-- On a pattern with at most one wildcard and otherwise plain
characters, and against a string free of line terminators, the compiled
regex of the code decides exactly the relation described by the spec. -/
theorem compilePattern_agrees (x : String) (hx : patternOk x.data = true)
    (s : List Char) (hs : (s.all fun c => !lineTerm c) = true) :
    ∃ r, compilePattern x = some r ∧ rmatch r s = specMatch x.data s := by
  rcases patternOk_cases x.data hx with hp | ⟨u, v, heq, hu, hv⟩
  · have hns := not_star_mem_of_plain x.data hp
    refine ⟨x.data.map fun c => Piece.once (Atom.lit c), ?_, ?_⟩
    · rw [compilePattern, replaceFirstStar_no_star x.data hns,
        parseRegex_lits x.data hp]
    · exact bool_eq_of_iff _ _
        ((rmatch_lits x.data s).trans (specMatch_lits x.data hns s).symm)
  · have hnu := not_star_mem_of_plain u hu
    refine ⟨(u.map fun c => Piece.once (Atom.lit c)) ++
      Piece.plus Atom.dot :: (v.map fun c => Piece.once (Atom.lit c)),
      ?_, ?_⟩
    · rw [compilePattern, heq, replaceFirstStar_app_star u v hnu,
        parseRegex_lits_plus u v hu hv]
    · rw [heq]
      apply bool_eq_of_iff
      rw [rmatch_lits_append u (Piece.plus Atom.dot ::
          (v.map fun c => Piece.once (Atom.lit c))) s,
        specMatch_lits_append u ('*' :: v) hnu s]
      constructor
      · rintro ⟨s₁, s₂, hsplit, hl, hm⟩
        obtain ⟨m, t, h₂, hne, _, hmv⟩ := (rmatch_plus_dot _ s₂).1 hm
        refine ⟨s₁, s₂, hsplit, hl, ?_⟩
        refine (specMatch_star_head v s₂).2 ⟨m, t, h₂, hne, ?_⟩
        exact (specMatch_lits v (not_star_mem_of_plain v hv) t).2
          ((rmatch_lits v t).1 hmv)
      · rintro ⟨s₁, s₂, hsplit, hl, hm⟩
        obtain ⟨m, t, h₂, hne, hmv⟩ := (specMatch_star_head v s₂).1 hm
        refine ⟨s₁, s₂, hsplit, hl, ?_⟩
        refine (rmatch_plus_dot _ s₂).2 ⟨m, t, h₂, hne, ?_, ?_⟩
        · have : (s₂.all fun c => !lineTerm c) = true := by
            rw [hsplit] at hs
            simp only [List.all_append, Bool.and_eq_true] at hs
            exact hs.2
          rw [h₂] at this
          simp only [List.all_append, Bool.and_eq_true] at this
          exact this.1
        · exact (rmatch_lits v t).2
            ((specMatch_lits v (not_star_mem_of_plain v hv) t).1 hmv)

/-- C2 (amended): on pattern sets whose patterns contain at most one
wildcard and otherwise only plain characters, and paths whose trimmed
form contains no line terminator, `shouldIgnore` decides exactly the
relation stated by the spec: the trimmed path matches some pattern
case-insensitively, anchored at both ends, with the wildcard matching
one or more characters; for the empty pattern set both sides are false.
(The restrictions are forced by `shouldIgnore_spec_divergence_cex`: only
the **first** `*` of a pattern is expanded to `.+`, a later `*` becomes
a Kleene star of the preceding character, and `.` does not match line
terminators.) -/
theorem shouldIgnore_matches_spec (S : List String) (P : String)
    (hS : (S.all fun x => patternOk x.data) = true)
    (hP : ((trimChars P.data).all fun c => !lineTerm c) = true) :
    ∃ rs, compileAll S = some rs ∧
      shouldIgnoreRoute rs P = specShouldIgnore S P := by
  induction S with
  | nil => exact ⟨[], rfl, rfl⟩
  | cons x S ih =>
      simp only [List.all_cons, Bool.and_eq_true] at hS
      obtain ⟨r, hr, hagree⟩ :=
        compilePattern_agrees x hS.1 (trimChars P.data) hP
      obtain ⟨rs, hrs, hagree'⟩ := ih hS.2
      refine ⟨r :: rs, ?_, ?_⟩
      · rw [compileAll] at hrs ⊢
        rw [List.mapM_cons, hr, hrs]
        rfl
      · show shouldIgnoreRoute (r :: rs) P = specShouldIgnore (x :: S) P
        simp only [shouldIgnoreRoute, specShouldIgnore, List.any_cons]
        rw [hagree]
        exact congrArg (specMatch x.data (trimChars P.data) || ·) hagree'

theorem shouldIgnore_matches_spec_witness :
    ∃ rs, compileAll ["/v1/accounts/*"] = some rs ∧
      shouldIgnoreRoute rs "/v1/accounts/42" =
        specShouldIgnore ["/v1/accounts/*"] "/v1/accounts/42" :=
  shouldIgnore_matches_spec ["/v1/accounts/*"] "/v1/accounts/42" (by decide)
    (by decide)

/-- C2 counterexample: the claim's universal reading fails on the code.
With the two-wildcard pattern `/a/*/b/*` the path `/a/x/b/y` matches per
the spec (each `*` one or more characters) but `shouldIgnore` is false:
only the first `*` was replaced by `.+`, the second stayed a Kleene star
of `/` in the compiled regex `^/a/.+/b/*$`.  With pattern `/a/*` and a
path whose wildcard span contains a newline, the spec matches but the
compiled `.+` does not cross the line terminator. -/
theorem shouldIgnore_spec_divergence_cex :
    shouldIgnorePatterns ["/a/*/b/*"] "/a/x/b/y" = some false ∧
    specShouldIgnore ["/a/*/b/*"] "/a/x/b/y" = true ∧
    shouldIgnorePatterns ["/a/*"] "/a/x\ny" = some false ∧
    specShouldIgnore ["/a/*"] "/a/x\ny" = true := by
  refine ⟨by decide, by decide, by decide, by decide⟩
